import Mathlib

/-!
# Metadata DSL function of goa (`design/dsl/metadata.go`)

A shallow embedding of `dsl.Metadata` and of the closure `appendMetadata` it
defines, followed by theorems about them.

Modelling conventions.

* Memory is explicit.  A Go slice is a pointer into a backing array with a
  length and a capacity; `append` writes into the spare capacity of that array
  when the values fit and allocates a new array otherwise.  A Go map is a
  reference to a map object; assigning to an entry mutates that object, and
  every holder of the reference sees it.
* Pointers to expression objects are addresses into typed heaps; the nil
  pointer, like the nil map, is `none`.
* A Go panic is the `error` branch of `Except Fault`.
* The values passed to `Metadata` are taken as a list of strings.
-/

namespace Goa

/-- Heap address: the target of a Go pointer. -/
abbrev Addr := Nat

/-- Run-time faults (Go panics) that the statements of `Metadata` can raise. -/
inductive Fault where
  /-- assignment to an entry of a nil map -/
  | nilMapWrite
  /-- field access through a nil pointer -/
  | nilDereference
  deriving DecidableEq, Repr

/-- A Go slice value of type `[]string`: the backing array it points into, the
index of its first element in that array, its length, and its spare capacity
(capacity minus length). -/
structure Slice where
  arr : Nat
  off : Nat
  len : Nat
  spare : Nat
  deriving DecidableEq, Repr

/-- Go `cap(s)`. -/
def Slice.cap (s : Slice) : Nat := s.len + s.spare

/-- The nil slice: length and capacity zero. -/
def nilSlice : Slice := ⟨0, 0, 0, 0⟩

/-- The contents of a Go `map[string][]string` object: each key is absent
(`none`) or bound to a slice value. -/
abbrev MapObject := String → Option Slice

/-- The type `design.MetadataExpr`, a Go map value: `none` is the nil map,
`some r` the reference to map object `r`. -/
abbrev MetadataExpr := Option Nat

/-- The memory that `appendMetadata` works on: the backing arrays of slices
(array address, then index), the map objects, the next unused address of each
kind, and the growth policy of the runtime: `growth c n` is the spare capacity
that `append` gives a new array when a slice of capacity `c` grows to length
`n` (Go leaves it to the implementation). -/
structure Heap where
  arrays : Nat → Nat → String
  nextArray : Nat
  maps : Nat → MapObject
  nextMap : Nat
  growth : Nat → Nat → Nat

/-- The sequence of strings a slice holds. -/
def readSlice (h : Heap) (s : Slice) : List String :=
  (List.range s.len).map (fun i => h.arrays s.arr (s.off + i))

/-- The arrays after `vs` is stored in array `a` from index `start` on. -/
def writeArray (arrays : Nat → Nat → String) (a start : Nat) (vs : List String) :
    Nat → Nat → String :=
  fun b i => if b = a ∧ start ≤ i ∧ i < start + vs.length then vs.getD (i - start) "" else
    arrays b i

/-- Go `append(s, vs...)`.  When the values fit the capacity of `s` they are
written into its backing array after its last element and the result is `s`
with a larger length; otherwise a new array is allocated, the elements of `s`
and the values are stored in it, and the result points to it. -/
def goAppend (h : Heap) (s : Slice) (vs : List String) : Heap × Slice :=
  if vs.length ≤ s.spare then
    ({ h with arrays := writeArray h.arrays s.arr (s.off + s.len) vs },
      { s with len := s.len + vs.length, spare := s.spare - vs.length })
  else
    ({ h with
        arrays := writeArray h.arrays h.nextArray 0 (readSlice h s ++ vs)
        nextArray := h.nextArray + 1 },
      ⟨h.nextArray, 0, s.len + vs.length, h.growth s.cap (s.len + vs.length)⟩)

/-- Go `make(map[string][]string)`: a new map object with no key. -/
def makeMap (h : Heap) : Heap × MetadataExpr :=
  ({ h with maps := Function.update h.maps h.nextMap (fun _ => none)
            nextMap := h.nextMap + 1 },
    some h.nextMap)

/-- Go two-result index `v, ok := m[k]`: `none` when `k` is not a key of `m`
(always so for the nil map). -/
def mapLookup (h : Heap) : MetadataExpr → String → Option Slice
  | none, _ => none
  | some r, k => h.maps r k

/-- Go index expression `m[k]`: the zero value (nil slice) when `k` is not a
key, also on the nil map. -/
def mapIndex (h : Heap) (m : MetadataExpr) (k : String) : Slice :=
  (mapLookup h m k).getD nilSlice

/-- Go assignment `m[k] = v`: panics on the nil map, otherwise binds `k` to `v`
in the map object and leaves every other key, and every other map object,
alone. -/
def mapAssign (h : Heap) : MetadataExpr → String → Slice → Except Fault Heap
  | none, _, _ => .error .nilMapWrite
  | some r, k, v =>
    .ok { h with maps := Function.update h.maps r (Function.update (h.maps r) k (some v)) }

/-- The closure `appendMetadata` of `Metadata` (metadata.go lines 57-63): it
returns the map value, here together with the memory after its statements. -/
def appendMetadata (h : Heap) (metadata : MetadataExpr) (name : String)
    (value : List String) : Except Fault (Heap × MetadataExpr) :=
  let hm := if metadata.isNone then makeMap h else (h, metadata)
  let hs := goAppend hm.1 (mapIndex hm.1 hm.2 name) value
  match mapAssign hs.1 hm.2 name hs.2 with
  | .error f => .error f
  | .ok h3 => .ok (h3, hm.2)

/-- The sequence of strings recorded under key `k` in store `m`, `none` when
`k` is not a key. -/
def seqLookup (h : Heap) (m : MetadataExpr) (k : String) : Option (List String) :=
  (mapLookup h m k).map (readSlice h)

/-- The sequence of strings that `m[k]` reads: empty when `k` is not a key. -/
def seqIndex (h : Heap) (m : MetadataExpr) (k : String) : List String :=
  readSlice h (mapIndex h m k)

/-- Modelled from the spec: the struct `design.AttributeExpr` (package `design`
is not in the source tree).  Its `Metadata` field, and all its other fields as
one value of an arbitrary type `F`. -/
structure AttributeExpr (F : Type) where
  Metadata : MetadataExpr
  fields : F

/-- Modelled from the spec: the struct `design.APIExpr` (package `design` is
not in the source tree): its `Metadata` field and its other fields. -/
structure APIExpr (F : Type) where
  Metadata : MetadataExpr
  fields : F

/-- Modelled from the spec: the struct `design.EndpointExpr` (package `design`
is not in the source tree): its `Metadata` field and its other fields. -/
structure EndpointExpr (F : Type) where
  Metadata : MetadataExpr
  fields : F

/-- Modelled from the spec: an expression object of any other type (package
`design` is not in the source tree), such as a composite wrapper, a service or
a response: its own `Metadata` field (nil when it has none) and its other
fields. -/
structure OtherExpr (F : Type) where
  Metadata : MetadataExpr
  fields : F

/-- A non-nil `eval.Expression` interface value as the type switch of
`Metadata` tells them apart.  A Go value has one dynamic type: the three
pointer types with a case of their own, and the types that implement
`design.CompositeExpr`, are different types.  Each pointer may be nil. -/
inductive Expression where
  /-- a value of a type that implements `design.CompositeExpr`: the pointer to
  the wrapper object itself and the pointer that its `Attribute()` returns -/
  | compositeExpr (self : Option Addr) (att : Option Addr)
  /-- `*design.AttributeExpr` (a field) -/
  | attributeExpr (p : Option Addr)
  /-- `*design.APIExpr` -/
  | apiExpr (p : Option Addr)
  /-- `*design.EndpointExpr` -/
  | endpointExpr (p : Option Addr)
  /-- a response expression -/
  | responseExpr (p : Option Addr)
  /-- a service expression (an endpoint group) -/
  | serviceExpr (p : Option Addr)
  /-- any other implementation of `eval.Expression` -/
  | otherExpr (tag : Nat) (p : Option Addr)
  deriving DecidableEq, Repr

/-- Errors collected by the evaluation engine. -/
inductive EvalError where
  /-- the error recorded by `eval.IncompatibleDSL` -/
  | incompatibleDSL
  deriving DecidableEq, Repr

/-- The construction state: the memory of slices and maps, one heap of objects
per expression type the switch writes to, the objects of every other type, and
the evaluation context (the stack of objects under construction, top first,
and the errors reported so far). -/
structure State (F : Type) where
  heap : Heap
  attributes : Addr → AttributeExpr F
  apis : Addr → APIExpr F
  endpoints : Addr → EndpointExpr F
  others : Addr → OtherExpr F
  stack : List Expression
  errors : List EvalError

variable {F : Type}

/-- Modelled from the spec: `eval.Current` (package `eval` is not in the source
tree) returns the object presently under construction, the top of the context
stack, or nothing outside any construction scope. -/
def Current (s : State F) : Option Expression := s.stack.head?

/-- Modelled from the spec: `eval.IncompatibleDSL` (package `eval` is not in
the source tree) records one DSL-usage error with the engine; it neither
returns an error value nor interrupts the caller. -/
def IncompatibleDSL (s : State F) : State F :=
  { s with errors := s.errors ++ [EvalError.incompatibleDSL] }

/-- The statement `p.Metadata = appendMetadata(...)` for
`p : *design.AttributeExpr`, once the closure has returned memory `h` and map
value `m`. -/
def setAttributeMetadata (s : State F) (a : Addr) (h : Heap) (m : MetadataExpr) : State F :=
  { s with heap := h
           attributes := Function.update s.attributes a { s.attributes a with Metadata := m } }

/-- The statement `p.Metadata = appendMetadata(...)` for `p : *design.APIExpr`,
once the closure has returned memory `h` and map value `m`. -/
def setAPIMetadata (s : State F) (a : Addr) (h : Heap) (m : MetadataExpr) : State F :=
  { s with heap := h
           apis := Function.update s.apis a { s.apis a with Metadata := m } }

/-- The statement `p.Metadata = appendMetadata(...)` for
`p : *design.EndpointExpr`, once the closure has returned memory `h` and map
value `m`. -/
def setEndpointMetadata (s : State F) (a : Addr) (h : Heap) (m : MetadataExpr) : State F :=
  { s with heap := h
           endpoints := Function.update s.endpoints a { s.endpoints a with Metadata := m } }

/-- The function `Metadata` (metadata.go lines 56-77).  The type switch tests
`design.CompositeExpr` first, then the three pointer types, then falls to
`default`; a nil interface value matches `default`.  Reading `p.Metadata`
through a nil pointer panics. -/
def Metadata (s : State F) (name : String) (value : List String) : Except Fault (State F) :=
  match Current s with
  | some (.compositeExpr _ att) =>
    match att with
    | none => .error .nilDereference
    | some a =>
      match appendMetadata s.heap (s.attributes a).Metadata name value with
      | .error f => .error f
      | .ok hm => .ok (setAttributeMetadata s a hm.1 hm.2)
  | some (.attributeExpr p) =>
    match p with
    | none => .error .nilDereference
    | some a =>
      match appendMetadata s.heap (s.attributes a).Metadata name value with
      | .error f => .error f
      | .ok hm => .ok (setAttributeMetadata s a hm.1 hm.2)
  | some (.apiExpr p) =>
    match p with
    | none => .error .nilDereference
    | some a =>
      match appendMetadata s.heap (s.apis a).Metadata name value with
      | .error f => .error f
      | .ok hm => .ok (setAPIMetadata s a hm.1 hm.2)
  | some (.endpointExpr p) =>
    match p with
    | none => .error .nilDereference
    | some a =>
      match appendMetadata s.heap (s.endpoints a).Metadata name value with
      | .error f => .error f
      | .ok hm => .ok (setEndpointMetadata s a hm.1 hm.2)
  | _ => .ok (IncompatibleDSL s)

/-- A sequence of `Metadata(name_i, values_i...)` calls, run in order; a panic
stops the sequence. -/
def MetadataCalls (s : State F) : List (String × List String) → Except Fault (State F)
  | [] => .ok s
  | (name, value) :: rest =>
    match Metadata s name value with
    | .error f => .error f
    | .ok s1 => MetadataCalls s1 rest

/-- The object whose store a call of `Metadata` writes to. -/
inductive Target where
  | attribute (a : Addr)
  | api (a : Addr)
  | endpoint (a : Addr)
  deriving DecidableEq, Repr

/-- The object an expression resolves to in the type switch: a composite
resolves to the attribute it wraps, an attribute, API or endpoint to itself; a
nil pointer, and any other type, resolves to nothing. -/
def resolve : Expression → Option Target
  | .compositeExpr _ att => att.map Target.attribute
  | .attributeExpr p => p.map Target.attribute
  | .apiExpr p => p.map Target.api
  | .endpointExpr p => p.map Target.endpoint
  | _ => none

/-- The current object is absent or of a type that no case of the switch but
`default` matches. -/
def unsupported : Option Expression → Bool
  | none => true
  | some (.responseExpr _) => true
  | some (.serviceExpr _) => true
  | some (.otherExpr _ _) => true
  | some _ => false

/-- The values that a sequence of calls passes under key `k`, concatenated in
call order. -/
def valuesFor (k : String) (calls : List (String × List String)) : List String :=
  ((calls.filter (fun c => c.1 = k)).map Prod.snd).flatten

/-- The `Metadata` field of a target object in a state. -/
def storeOf (s : State F) : Target → MetadataExpr
  | .attribute a => (s.attributes a).Metadata
  | .api a => (s.apis a).Metadata
  | .endpoint a => (s.endpoints a).Metadata

/-- The state after `p.Metadata = appendMetadata(...)` on a target object. -/
def setStore (s : State F) : Target → Heap → MetadataExpr → State F
  | .attribute a, h, m => setAttributeMetadata s a h m
  | .api a, h, m => setAPIMetadata s a h m
  | .endpoint a, h, m => setEndpointMetadata s a h m

/-- The elements of `t` lie outside the spare capacity of `s`: in another
array, or before or after it, or one of the two is empty. -/
def Slice.clearOf (t s : Slice) : Prop :=
  t.arr ≠ s.arr ∨ t.len = 0 ∨ s.spare = 0 ∨ t.off + t.len ≤ s.off + s.len
    ∨ s.off + s.len + s.spare ≤ t.off

/-- The whole capacity of `t` lies outside the spare capacity of `s`. -/
def Slice.apart (t s : Slice) : Prop :=
  t.arr ≠ s.arr ∨ t.cap = 0 ∨ s.spare = 0 ∨ t.off + t.cap ≤ s.off + s.len
    ∨ s.off + s.len + s.spare ≤ t.off

/-- The backing array of `t` has been allocated (or `t` has no capacity, as
the nil slice). -/
def Slice.allocated (h : Heap) (t : Slice) : Prop :=
  t.cap = 0 ∨ t.arr < h.nextArray

instance (t s : Slice) : Decidable (t.clearOf s) := by
  unfold Slice.clearOf
  infer_instance

instance (t s : Slice) : Decidable (t.apart s) := by
  unfold Slice.apart
  infer_instance

instance (h : Heap) (t : Slice) : Decidable (t.allocated h) := by
  unfold Slice.allocated
  infer_instance

/-- Store `m` shares no memory that an append to key `name` of store `target`
writes: it is not the same map object, its map object is allocated, and the
elements of its slices lie in allocated arrays outside the spare capacity of
the slice under `name` in `target`. -/
def Unshared (h : Heap) (target : MetadataExpr) (name : String) (m : MetadataExpr) : Prop :=
  (∀ r, m = some r → target ≠ some r ∧ r < h.nextMap)
    ∧ ∀ k t, mapLookup h m k = some t →
        t.clearOf (mapIndex h target name) ∧ (t.len = 0 ∨ t.arr < h.nextArray)

/-- The keys of store `m` do not interfere: every slice lies in an allocated
array, and the capacity of each lies outside the spare capacity of every
other. -/
def Separated (h : Heap) (m : MetadataExpr) : Prop :=
  (∀ k t, mapLookup h m k = some t → t.allocated h)
    ∧ ∀ j k t u, j ≠ k → mapLookup h m j = some t → mapLookup h m k = some u → t.apart u

/-- Key `name` of store `m` can be appended to without disturbing the other
keys: the elements of the slice of every other key lie in an allocated array
outside the spare capacity of the slice under `name`. -/
def KeyClear (h : Heap) (m : MetadataExpr) (name : String) : Prop :=
  ∀ j t, j ≠ name → mapLookup h m j = some t →
    t.clearOf (mapIndex h m name) ∧ (t.len = 0 ∨ t.arr < h.nextArray)

/-- Memory with nothing allocated, in which `append` gives a new array no
spare capacity. -/
def emptyHeap : Heap := ⟨fun _ _ => "", 0, fun _ _ => none, 0, fun _ _ => 0⟩

/-- A state in which no object has a store, with the given stack. -/
def blankState (stack : List Expression) : State Unit :=
  ⟨emptyHeap, fun _ => ⟨none, ()⟩, fun _ => ⟨none, ()⟩, fun _ => ⟨none, ()⟩,
    fun _ => ⟨none, ()⟩, stack, []⟩

/-- Memory with one array of capacity three holding `a`, `b` and one map
object in which `k1` is bound to the first element of that array (`base[:1]`)
and `k2` to its first two elements (`base[:2]`). -/
def aliasedHeap : Heap :=
  ⟨fun a i => if a = 0 then ["a", "b", ""].getD i "" else "", 1,
    fun r k => if r = 0 then
      (if k = "k1" then some ⟨0, 0, 1, 2⟩ else if k = "k2" then some ⟨0, 0, 2, 1⟩ else none)
      else none,
    1, fun _ _ => 0⟩

/-- Memory with one array of capacity two holding `a` and one map object in
which `k1` and `k2` are bound to the same slice (`base[:1]`) of that array. -/
def sharedSliceHeap : Heap :=
  ⟨fun a i => if a = 0 then ["a", ""].getD i "" else "", 1,
    fun r k => if r = 0 then
      (if k = "k1" then some ⟨0, 0, 1, 1⟩ else if k = "k2" then some ⟨0, 0, 1, 1⟩ else none)
      else none,
    1, fun _ _ => 0⟩

/-- A state with the memory `aliasedHeap`, whose map object is the store of
attribute 0, with the given stack. -/
def aliasedState (stack : List Expression) : State Unit :=
  ⟨aliasedHeap, fun a => ⟨if a = 0 then some 0 else none, ()⟩, fun _ => ⟨none, ()⟩,
    fun _ => ⟨none, ()⟩, fun _ => ⟨none, ()⟩, stack, []⟩

/-- A state with one empty map object that is the `Metadata` field of
attribute 0, of attribute 1 and of the object 3 of another type, with the
given stack. -/
def sharedMapState (stack : List Expression) : State Unit :=
  ⟨⟨fun _ _ => "", 0, fun _ _ => none, 1, fun _ _ => 0⟩,
    fun a => ⟨if a = 0 ∨ a = 1 then some 0 else none, ()⟩, fun _ => ⟨none, ()⟩,
    fun _ => ⟨none, ()⟩, fun w => ⟨if w = 3 then some 0 else none, ()⟩, stack, []⟩

/-! ## Slices and `append` -/

theorem readSlice_length (h : Heap) (s : Slice) : (readSlice h s).length = s.len := by
  simp [readSlice]

theorem readSlice_getElem (h : Heap) (s : Slice) (i : Nat) (hi : i < (readSlice h s).length) :
    (readSlice h s)[i] = h.arrays s.arr (s.off + i) := by
  simp [readSlice]

/-- A slice of length zero holds nothing. -/
theorem readSlice_of_len_zero (h : Heap) (s : Slice) (hs : s.len = 0) : readSlice h s = [] := by
  simp [readSlice, hs]

/-- The result of `append` holds the elements of its argument followed by the
values. -/
theorem readSlice_goAppend (h : Heap) (s : Slice) (vs : List String) :
    readSlice (goAppend h s vs).1 (goAppend h s vs).2 = readSlice h s ++ vs := by
  apply List.ext_getElem
  · unfold goAppend
    split <;> simp [readSlice]
  · intro i h1 h2
    rw [readSlice_getElem]
    have hlen : i < s.len + vs.length := by
      have := h2
      simpa [readSlice] using this
    by_cases hfit : vs.length ≤ s.spare
    · have hg : goAppend h s vs
          = ({ h with arrays := writeArray h.arrays s.arr (s.off + s.len) vs },
              { s with len := s.len + vs.length, spare := s.spare - vs.length }) := by
        simp [goAppend, hfit]
      simp only [hg, writeArray]
      by_cases hi : i < s.len
      · rw [List.getElem_append_left (by simpa [readSlice] using hi)]
        rw [readSlice_getElem]
        split_ifs with hc
        · simp only [true_and] at hc
          omega
        · rfl
      · rw [List.getElem_append_right (by simpa [readSlice] using hi)]
        simp only [readSlice_length]
        have hidx : s.off + i - (s.off + s.len) = i - s.len := by omega
        have hb : i - s.len < vs.length := by omega
        split_ifs with hc
        · rw [hidx, List.getD_eq_getElem _ _ hb]
        · simp only [true_and] at hc
          omega
    · have hg : goAppend h s vs
          = ({ h with
                arrays := writeArray h.arrays h.nextArray 0 (readSlice h s ++ vs)
                nextArray := h.nextArray + 1 },
              ⟨h.nextArray, 0, s.len + vs.length, h.growth s.cap (s.len + vs.length)⟩) := by
        simp [goAppend, hfit]
      simp only [hg, writeArray]
      have hl : (readSlice h s ++ vs).length = s.len + vs.length := by simp [readSlice]
      have hb : 0 + i - 0 < (readSlice h s ++ vs).length := by omega
      split_ifs with hc
      · rw [List.getD_eq_getElem _ _ hb]
        simp
      · simp only [true_and] at hc
        omega

/-- What `append` leaves alone: a slice in an allocated array whose elements
lie outside the spare capacity of the argument holds the same elements. -/
theorem readSlice_goAppend_of_clearOf (h : Heap) (s t : Slice) (vs : List String)
    (hc : t.clearOf s) (ha : t.len = 0 ∨ t.arr < h.nextArray) :
    readSlice (goAppend h s vs).1 t = readSlice h t := by
  apply List.ext_getElem
  · simp [readSlice]
  · intro i h1 h2
    rw [readSlice_getElem, readSlice_getElem]
    have hi : i < t.len := by simpa [readSlice] using h2
    unfold goAppend
    split
    · rename_i hfit
      simp only [writeArray]
      rw [if_neg]
      unfold Slice.clearOf at hc
      omega
    · simp only [writeArray]
      rw [if_neg]
      omega

theorem goAppend_maps (h : Heap) (s : Slice) (vs : List String) :
    (goAppend h s vs).1.maps = h.maps ∧ (goAppend h s vs).1.nextMap = h.nextMap
      ∧ (goAppend h s vs).1.growth = h.growth
      ∧ h.nextArray ≤ (goAppend h s vs).1.nextArray := by
  unfold goAppend
  split <;> simp

/-- With no values `append` returns its argument and writes nothing. -/
theorem goAppend_nil (h : Heap) (s : Slice) : goAppend h s [] = (h, s) := by
  have hw : writeArray h.arrays s.arr (s.off + s.len) [] = h.arrays := by
    funext b i
    simp only [writeArray, List.length_nil, Nat.add_zero]
    rw [if_neg (by omega)]
  unfold goAppend
  simp [hw]

/-- The slice that `append` returns keeps clear of what its argument kept
clear of: a slice in an allocated array whose capacity lies outside the spare
capacity of the argument, and whose spare capacity lies outside the capacity
of the argument, stands in the same relation to the result. -/
theorem apart_goAppend (h : Heap) (s t : Slice) (vs : List String)
    (ha : t.allocated h) (hts : t.apart s) (hst : s.apart t) :
    t.apart (goAppend h s vs).2 ∧ (goAppend h s vs).2.apart t := by
  unfold Slice.apart Slice.allocated Slice.cap at *
  unfold goAppend
  split
  · simp only
    constructor <;> omega
  · simp only
    constructor <;> omega

theorem allocated_goAppend (h : Heap) (s : Slice) (vs : List String) (hs : s.allocated h) :
    (goAppend h s vs).2.allocated (goAppend h s vs).1 := by
  unfold Slice.allocated Slice.cap at *
  unfold goAppend
  split
  · simp only
    omega
  · simp only
    omega

theorem allocated_mono (h h1 : Heap) (t : Slice) (hn : h.nextArray ≤ h1.nextArray)
    (ht : t.allocated h) : t.allocated h1 := by
  unfold Slice.allocated at *
  omega

theorem clearOf_of_apart (t s : Slice) (h : t.apart s) : t.clearOf s := by
  unfold Slice.apart Slice.clearOf Slice.cap at *
  omega

/-! ## The closure `appendMetadata` -/

theorem appendMetadata_some (h : Heap) (r : Nat) (name : String) (value : List String) :
    appendMetadata h (some r) name value
      = .ok ({ (goAppend h (mapIndex h (some r) name) value).1 with
                maps := Function.update (goAppend h (mapIndex h (some r) name) value).1.maps r
                  (Function.update ((goAppend h (mapIndex h (some r) name) value).1.maps r) name
                    (some (goAppend h (mapIndex h (some r) name) value).2)) },
              some r) := rfl

theorem appendMetadata_none (h : Heap) (name : String) (value : List String) :
    appendMetadata h none name value
      = appendMetadata (makeMap h).1 (some h.nextMap) name value := rfl

theorem goAppend_makeMap (h : Heap) (s : Slice) (vs : List String) :
    goAppend (makeMap h).1 s vs
      = ({ (goAppend h s vs).1 with maps := (makeMap h).1.maps, nextMap := h.nextMap + 1 },
          (goAppend h s vs).2) := by
  unfold goAppend makeMap
  split <;> rfl

theorem mapIndex_makeMap (h : Heap) (name : String) :
    mapIndex (makeMap h).1 (some h.nextMap) name = mapIndex h none name := by
  simp [mapIndex, mapLookup, makeMap]

/-- The closure always returns, with a present map: the map it was given, or a
new map object when it was given the nil map.  The memory after it is the
memory after `append` on the slice under `name`, with `name` bound to the
result of `append` in that map object and every other map object as it
was. -/
theorem appendMetadata_result (h : Heap) (metadata : MetadataExpr) (name : String)
    (value : List String) :
    ∃ h1 r, appendMetadata h metadata name value = .ok (h1, some r)
      ∧ (metadata = some r ∨ (metadata = none ∧ r = h.nextMap))
      ∧ h1.arrays = (goAppend h (mapIndex h metadata name) value).1.arrays
      ∧ h1.nextArray = (goAppend h (mapIndex h metadata name) value).1.nextArray
      ∧ h1.growth = h.growth
      ∧ h.nextMap ≤ h1.nextMap
      ∧ h1.maps r name = some (goAppend h (mapIndex h metadata name) value).2
      ∧ (∀ j, j ≠ name → h1.maps r j = mapLookup h metadata j)
      ∧ (∀ q, q ≠ r → h1.maps q = h.maps q) := by
  cases metadata with
  | none =>
    refine ⟨_, h.nextMap,
      (appendMetadata_none h name value).trans (appendMetadata_some _ _ name value),
      Or.inr ⟨rfl, rfl⟩, ?_, ?_, ?_, ?_, ?_, ?_, ?_⟩
    · simp only [mapIndex_makeMap, goAppend_makeMap]
    · simp only [mapIndex_makeMap, goAppend_makeMap]
    · simp only [mapIndex_makeMap, goAppend_makeMap]
      exact (goAppend_maps h _ value).2.2.1
    · simp only [mapIndex_makeMap, goAppend_makeMap]
      omega
    · simp [mapIndex_makeMap, goAppend_makeMap]
    · intro j hj
      simp only [mapIndex_makeMap, goAppend_makeMap]
      simp [hj, makeMap, mapLookup]
    · intro q hq
      simp only [mapIndex_makeMap, goAppend_makeMap]
      simp [hq, makeMap, Function.update]
  | some r =>
    refine ⟨_, r, appendMetadata_some h r name value, Or.inl rfl, rfl, rfl, ?_, ?_, ?_, ?_, ?_⟩
    · exact (goAppend_maps h _ value).2.2.1
    · simp [(goAppend_maps h (mapIndex h (some r) name) value).2.1]
    · simp
    · intro j hj
      simp [hj, mapLookup, (goAppend_maps h (mapIndex h (some r) name) value).1]
    · intro q hq
      simp [Function.update, hq, (goAppend_maps h (mapIndex h (some r) name) value).1]

theorem readSlice_congr (h1 h2 : Heap) (t : Slice) (h : h1.arrays = h2.arrays) :
    readSlice h1 t = readSlice h2 t := by
  simp [readSlice, h]

/-- What one call of the closure does to the store it is given and leaves of
the rest of the memory. -/
theorem appendMetadata_effect (h : Heap) (metadata : MetadataExpr) (name : String)
    (value : List String) :
    ∃ h1 r, appendMetadata h metadata name value = .ok (h1, some r)
      ∧ (metadata = some r ∨ (metadata = none ∧ r = h.nextMap))
      ∧ seqLookup h1 (some r) name = some (seqIndex h metadata name ++ value)
      ∧ (∀ j, j ≠ name → mapLookup h1 (some r) j = mapLookup h metadata j)
      ∧ (∀ t : Slice, t.clearOf (mapIndex h metadata name) → (t.len = 0 ∨ t.arr < h.nextArray)
          → readSlice h1 t = readSlice h t)
      ∧ (∀ q, q ≠ r → h1.maps q = h.maps q)
      ∧ h.nextArray ≤ h1.nextArray ∧ h.nextMap ≤ h1.nextMap := by
  obtain ⟨h1, r, hok, hr, harr, hnext, -, hnm, hname, hother, hmaps⟩ :=
    appendMetadata_result h metadata name value
  refine ⟨h1, r, hok, hr, ?_, ?_, ?_, hmaps, ?_, hnm⟩
  · simp only [seqLookup, mapLookup, hname, Option.map_some', seqIndex]
    rw [readSlice_congr h1 _ _ harr, readSlice_goAppend]
  · intro j hj
    simpa [mapLookup] using hother j hj
  · intro t hc ha
    rw [readSlice_congr h1 _ _ harr]
    exact readSlice_goAppend_of_clearOf h _ t value hc ha
  · rw [hnext]
    exact (goAppend_maps h _ value).2.2.2

theorem appendMetadata_ok (h : Heap) (metadata : MetadataExpr) (name : String)
    (value : List String) :
    ∃ h1 m, appendMetadata h metadata name value = .ok (h1, m) := by
  obtain ⟨h1, r, hok, -⟩ := appendMetadata_result h metadata name value
  exact ⟨h1, some r, hok⟩

/-- A store that shares no memory with the target reads the same after the
closure has run on the target. -/
theorem appendMetadata_unshared (h h1 : Heap) (target m m1 : MetadataExpr) (name : String)
    (value : List String) (hok : appendMetadata h target name value = .ok (h1, m1))
    (hu : Unshared h target name m) (k : String) :
    mapLookup h1 m k = mapLookup h m k ∧ seqLookup h1 m k = seqLookup h m k := by
  obtain ⟨h2, r, hok2, hr, -, -, hframe, hmaps, -, -⟩ :=
    appendMetadata_effect h target name value
  rw [hok] at hok2
  cases hok2
  have hl : mapLookup h1 m k = mapLookup h m k := by
    cases m with
    | none => rfl
    | some q =>
      obtain ⟨hne, hlt⟩ := hu.1 q rfl
      have hq : q ≠ r := by
        rcases hr with hr | ⟨-, hr⟩
        · intro hqr
          exact hne (by rw [hr, hqr])
        · omega
      simp [mapLookup, hmaps q hq]
  refine ⟨hl, ?_⟩
  simp only [seqLookup, hl]
  cases ht : mapLookup h m k with
  | none => rfl
  | some t =>
    obtain ⟨hc, ha⟩ := hu.2 k t ht
    simp [hframe t hc ha]

/-- One call of the closure on a store whose keys do not interfere: the key
gets the values appended, every other key reads as before, and the keys of
the result do not interfere. -/
theorem appendMetadata_separated (h : Heap) (metadata : MetadataExpr) (name : String)
    (value : List String) (hsep : Separated h metadata) :
    ∃ h1 r, appendMetadata h metadata name value = .ok (h1, some r)
      ∧ (metadata = some r ∨ (metadata = none ∧ r = h.nextMap))
      ∧ Separated h1 (some r)
      ∧ ∀ j, seqLookup h1 (some r) j
          = if j = name then some (seqIndex h metadata name ++ value) else seqLookup h metadata j := by
  obtain ⟨h1, r, hok, hr, harr, hnext, -, -, hname, hother, -⟩ :=
    appendMetadata_result h metadata name value
  obtain ⟨h2, r2, hok2, -, hseq, hlook, hframe, -, hmono, -⟩ :=
    appendMetadata_effect h metadata name value
  rw [hok] at hok2
  cases hok2
  have hmono1 : h.nextArray ≤ h1.nextArray := hmono
  -- the old slice under `name` stands clear of every other key
  have hold : ∀ j t, j ≠ name → mapLookup h metadata j = some t →
      t.allocated h ∧ t.apart (mapIndex h metadata name) ∧ (mapIndex h metadata name).apart t := by
    intro j t hj ht
    refine ⟨hsep.1 j t ht, ?_, ?_⟩
    · cases hn : mapLookup h metadata name with
      | none =>
        simp only [mapIndex, hn, Option.getD_none]
        unfold Slice.apart nilSlice
        simp
      | some u =>
        simp only [mapIndex, hn, Option.getD_some]
        exact hsep.2 j name t u hj ht hn
    · cases hn : mapLookup h metadata name with
      | none =>
        simp only [mapIndex, hn, Option.getD_none]
        unfold Slice.apart nilSlice Slice.cap
        simp
      | some u =>
        simp only [mapIndex, hn, Option.getD_some]
        exact hsep.2 name j u t (fun e => hj e.symm) hn ht
  have hsold : (mapIndex h metadata name).allocated h := by
    cases hn : mapLookup h metadata name with
    | none =>
      simp only [mapIndex, hn, Option.getD_none]
      unfold Slice.allocated nilSlice Slice.cap
      simp
    | some u =>
      simp only [mapIndex, hn, Option.getD_some]
      exact hsep.1 name u hn
  have hnew : mapLookup h1 (some r) name
      = some (goAppend h (mapIndex h metadata name) value).2 := by
    simpa [mapLookup] using hname
  refine ⟨h1, r, hok, hr, ⟨?_, ?_⟩, ?_⟩
  · intro k t ht
    by_cases hk : k = name
    · subst hk
      rw [hnew] at ht
      cases ht
      have := allocated_goAppend h (mapIndex h metadata k) value hsold
      unfold Slice.allocated at this ⊢
      rw [hnext]
      exact this
    · rw [hlook k hk] at ht
      exact allocated_mono h h1 t hmono1 (hsep.1 k t ht)
  · intro j k t u hjk ht hu
    by_cases hj : j = name
    · subst hj
      have hk : k ≠ j := fun e => hjk e.symm
      rw [hnew] at ht
      cases ht
      rw [hlook k hk] at hu
      obtain ⟨ha, h1a, h2a⟩ := hold k u hk hu
      exact (apart_goAppend h _ u value ha h1a h2a).2
    · by_cases hk : k = name
      · subst hk
        rw [hnew] at hu
        cases hu
        rw [hlook j hj] at ht
        obtain ⟨ha, h1a, h2a⟩ := hold j t hj ht
        exact (apart_goAppend h _ t value ha h1a h2a).1
      · rw [hlook j hj] at ht
        rw [hlook k hk] at hu
        exact hsep.2 j k t u hjk ht hu
  · intro j
    by_cases hj : j = name
    · subst hj
      simp [hseq]
    · simp only [if_neg hj, seqLookup, hlook j hj]
      cases ht : mapLookup h metadata j with
      | none => rfl
      | some t =>
        obtain ⟨ha, h1a, -⟩ := hold j t hj ht
        have hc := clearOf_of_apart _ _ h1a
        have hal : t.len = 0 ∨ t.arr < h.nextArray := by
          unfold Slice.allocated Slice.cap at ha
          omega
        simp [hframe t hc hal]

/-! ## Frame facts about the field assignments -/

@[simp] theorem storeOf_setStore_same (s : State F) (t : Target) (h : Heap) (m : MetadataExpr) :
    storeOf (setStore s t h m) t = m := by
  cases t <;>
    simp [storeOf, setStore, setAttributeMetadata, setAPIMetadata, setEndpointMetadata]

theorem storeOf_setStore_of_ne (s : State F) (t u : Target) (h : Heap) (m : MetadataExpr)
    (hne : u ≠ t) : storeOf (setStore s t h m) u = storeOf s u := by
  cases t <;> cases u <;>
    simp_all [storeOf, setStore, setAttributeMetadata, setAPIMetadata, setEndpointMetadata,
      Function.update]

@[simp] theorem Current_setStore (s : State F) (t : Target) (h : Heap) (m : MetadataExpr) :
    Current (setStore s t h m) = Current s := by
  cases t <;> rfl

@[simp] theorem errors_setStore (s : State F) (t : Target) (h : Heap) (m : MetadataExpr) :
    (setStore s t h m).errors = s.errors := by
  cases t <;> rfl

@[simp] theorem heap_setStore (s : State F) (t : Target) (h : Heap) (m : MetadataExpr) :
    (setStore s t h m).heap = h := by
  cases t <;> rfl

/-! ## The type switch -/

/-- On a current object that resolves to a target, `Metadata` runs the closure
on the target's map value and assigns the result to the target's `Metadata`
field. -/
theorem Metadata_of_resolve (s : State F) (e : Expression) (t : Target)
    (name : String) (value : List String) (h : Heap) (m : MetadataExpr)
    (hcur : Current s = some e) (hres : resolve e = some t)
    (hm : appendMetadata s.heap (storeOf s t) name value = .ok (h, m)) :
    Metadata s name value = .ok (setStore s t h m) := by
  unfold Metadata
  rw [hcur]
  cases e with
  | compositeExpr self att =>
    cases att with
    | none => simp [resolve] at hres
    | some a =>
      simp only [resolve, Option.map_some', Option.some.injEq] at hres
      subst hres
      simp only [storeOf] at hm
      simp [hm, setStore]
  | attributeExpr p =>
    cases p with
    | none => simp [resolve] at hres
    | some a =>
      simp only [resolve, Option.map_some', Option.some.injEq] at hres
      subst hres
      simp only [storeOf] at hm
      simp [hm, setStore]
  | apiExpr p =>
    cases p with
    | none => simp [resolve] at hres
    | some a =>
      simp only [resolve, Option.map_some', Option.some.injEq] at hres
      subst hres
      simp only [storeOf] at hm
      simp [hm, setStore]
  | endpointExpr p =>
    cases p with
    | none => simp [resolve] at hres
    | some a =>
      simp only [resolve, Option.map_some', Option.some.injEq] at hres
      subst hres
      simp only [storeOf] at hm
      simp [hm, setStore]
  | responseExpr p => simp [resolve] at hres
  | serviceExpr p => simp [resolve] at hres
  | otherExpr tag p => simp [resolve] at hres

/-- On an absent or unsupported current object `Metadata` is exactly one call
of `eval.IncompatibleDSL`. -/
theorem Metadata_of_unsupported (s : State F) (name : String) (value : List String)
    (h : unsupported (Current s) = true) :
    Metadata s name value = .ok (IncompatibleDSL s) := by
  unfold Metadata
  cases hc : Current s with
  | none => rfl
  | some e =>
    rw [hc] at h
    cases e <;> simp_all [unsupported]

theorem valuesFor_cons (k name : String) (value : List String)
    (rest : List (String × List String)) :
    valuesFor k ((name, value) :: rest)
      = (if name = k then value else []) ++ valuesFor k rest := by
  unfold valuesFor
  by_cases h : name = k <;> simp [List.filter_cons, h]

/-- One call on a resolved target: the call returns, and the state after is
the state before with the memory and the map value that the closure returned
on the target's store. -/
theorem Metadata_step (s : State F) (e : Expression) (t : Target)
    (name : String) (value : List String)
    (hcur : Current s = some e) (hres : resolve e = some t) :
    ∃ s1 h m, Metadata s name value = .ok s1
      ∧ appendMetadata s.heap (storeOf s t) name value = .ok (h, m)
      ∧ s1 = setStore s t h m := by
  obtain ⟨h, m, hm⟩ := appendMetadata_ok s.heap (storeOf s t) name value
  exact ⟨_, h, m, Metadata_of_resolve s e t name value h m hcur hres hm, hm, rfl⟩

/-- Every call of `Metadata` is in one of three situations: the current object
is absent or unsupported, or it resolves to a target, or the call panics on a
nil pointer. -/
theorem Metadata_cases (s : State F) (name : String) (value : List String) :
    unsupported (Current s) = true
      ∨ (∃ e t, Current s = some e ∧ resolve e = some t)
      ∨ Metadata s name value = .error .nilDereference := by
  cases hc : Current s with
  | none => exact Or.inl rfl
  | some e =>
    cases e with
    | compositeExpr self att =>
      cases att with
      | none => exact Or.inr (Or.inr (by simp [Metadata, hc]))
      | some a => exact Or.inr (Or.inl ⟨_, .attribute a, rfl, rfl⟩)
    | attributeExpr p =>
      cases p with
      | none => exact Or.inr (Or.inr (by simp [Metadata, hc]))
      | some a => exact Or.inr (Or.inl ⟨_, .attribute a, rfl, rfl⟩)
    | apiExpr p =>
      cases p with
      | none => exact Or.inr (Or.inr (by simp [Metadata, hc]))
      | some a => exact Or.inr (Or.inl ⟨_, .api a, rfl, rfl⟩)
    | endpointExpr p =>
      cases p with
      | none => exact Or.inr (Or.inr (by simp [Metadata, hc]))
      | some a => exact Or.inr (Or.inl ⟨_, .endpoint a, rfl, rfl⟩)
    | responseExpr p => exact Or.inl rfl
    | serviceExpr p => exact Or.inl rfl
    | otherExpr tag p => exact Or.inl rfl

theorem seqIndex_eq (h : Heap) (m : MetadataExpr) (k : String) :
    seqIndex h m k = (seqLookup h m k).getD [] := by
  simp only [seqIndex, seqLookup, mapIndex]
  cases mapLookup h m k with
  | none => simp [readSlice, nilSlice]
  | some t => simp

/-! ## Claims -/

/-- C1, as stated, fails on a store whose keys share a backing array: with
`k1` bound to `base[:1]` and `k2` to `base[:2]` of one array of capacity three,
one call under `k1` writes the second element of the array, so `k2` no longer
reads as its initial sequence. -/
theorem Metadata_calls_aliased_keys :
    ∃ s1, MetadataCalls (aliasedState [.attributeExpr (some 0)]) [("k1", ["x"])] = .ok s1
      ∧ seqIndex (aliasedState [.attributeExpr (some 0)]).heap
          (storeOf (aliasedState [.attributeExpr (some 0)]) (.attribute 0)) "k2" = ["a", "b"]
      ∧ valuesFor "k2" [("k1", ["x"])] = []
      ∧ seqIndex s1.heap (storeOf s1 (.attribute 0)) "k2" = ["a", "x"] :=
  ⟨_, rfl, by decide, by decide, by decide⟩

/-- C1, amended.  For a current object that resolves to a target (an
attribute, an API, an endpoint, or a composite resolved to the attribute it
wraps) whose initial store, nil or present, has keys that do not interfere
(no slice has spare capacity inside the capacity of the slice of another key,
and every slice lies in an allocated array), and any finite sequence of
`Metadata` calls, the sequence returns and in the final store of the target
every key `k` reads as its initial sequence (empty when absent) followed by
the values of the calls named `k`, in call order; `k` is a key of the final
store exactly when it was one initially or some call was named `k`. -/
theorem Metadata_calls_accumulate (s : State F) (e : Expression) (t : Target)
    (calls : List (String × List String))
    (hcur : Current s = some e) (hres : resolve e = some t)
    (hsep : Separated s.heap (storeOf s t)) :
    ∃ s1, MetadataCalls s calls = .ok s1
      ∧ (∀ k, seqIndex s1.heap (storeOf s1 t) k
            = seqIndex s.heap (storeOf s t) k ++ valuesFor k calls)
      ∧ (∀ k, (seqLookup s1.heap (storeOf s1 t) k).isSome
            ↔ (seqLookup s.heap (storeOf s t) k).isSome ∨ ∃ c ∈ calls, c.1 = k) := by
  induction calls generalizing s with
  | nil => exact ⟨s, rfl, by simp [valuesFor], by simp⟩
  | cons c rest ih =>
    obtain ⟨name, value⟩ := c
    obtain ⟨s1, h, m, hs1, hm, rfl⟩ := Metadata_step s e t name value hcur hres
    obtain ⟨h1, r, hok, -, hsep1, hseq⟩ :=
      appendMetadata_separated s.heap (storeOf s t) name value hsep
    rw [hm] at hok
    cases hok
    obtain ⟨s2, hs2, hidx, hkey⟩ := ih (setStore s t h (some r)) (by simpa using hcur)
      (by simpa using hsep1)
    refine ⟨s2, ?_, ?_, ?_⟩
    · simp [MetadataCalls, hs1, hs2]
    · intro k
      rw [hidx k, valuesFor_cons, storeOf_setStore_same, heap_setStore, seqIndex_eq h, hseq k]
      by_cases hk : k = name
      · subst hk
        simp
      · have h2 : ¬ name = k := fun h3 => hk h3.symm
        simp [hk, h2, seqIndex_eq]
    · intro k
      rw [hkey k, storeOf_setStore_same, heap_setStore, hseq k]
      by_cases hk : k = name
      · subst hk
        simp
      · have h2 : ¬ name = k := fun h3 => hk h3.symm
        simp [hk, h2]

/-- C1, amended, at the end-to-end scenario of the spec: an attribute with no
store yet, two calls under `struct:tag:json`. -/
theorem Metadata_calls_accumulate_witness :
    Current (blankState [.attributeExpr (some 0)]) = some (.attributeExpr (some 0))
    ∧ resolve (.attributeExpr (some 0)) = some (.attribute 0)
    ∧ Separated (blankState [.attributeExpr (some 0)]).heap
        (storeOf (blankState [.attributeExpr (some 0)]) (.attribute 0))
    ∧ ∃ s1, MetadataCalls (blankState [.attributeExpr (some 0)])
          [("struct:tag:json", ["myName,omitempty"]), ("struct:tag:json", ["extra"])] = .ok s1
        ∧ seqIndex s1.heap (storeOf s1 (.attribute 0)) "struct:tag:json"
            = ["myName,omitempty", "extra"] := by
  have hsep : Separated (blankState [.attributeExpr (some 0)]).heap
      (storeOf (blankState [.attributeExpr (some 0)]) (.attribute 0)) := by
    constructor
    · intro k t ht
      simp [storeOf, blankState, mapLookup] at ht
    · intro j k t u _ ht
      simp [storeOf, blankState, mapLookup] at ht
  refine ⟨rfl, rfl, hsep, ?_⟩
  obtain ⟨s1, h1, h2, -⟩ := Metadata_calls_accumulate (blankState [.attributeExpr (some 0)])
    (.attributeExpr (some 0)) (.attribute 0)
    [("struct:tag:json", ["myName,omitempty"]), ("struct:tag:json", ["extra"])] rfl rfl hsep
  refine ⟨s1, h1, ?_⟩
  rw [h2 "struct:tag:json"]
  decide

/-- C2. For every store (nil or present), key and values, `appendMetadata`
returns a present store, the map it was given when that was present, in which
the key reads as its old sequence (empty when the store or the key was absent)
followed by the values in argument order; on a nil store the result has
exactly that one key, reading as the values. -/
theorem appendMetadata_spec (h : Heap) (metadata : MetadataExpr) (name : String)
    (value : List String) :
    ∃ h1 r, appendMetadata h metadata name value = .ok (h1, some r)
      ∧ seqLookup h1 (some r) name = some (seqIndex h metadata name ++ value)
      ∧ (mapLookup h metadata name = none → seqLookup h1 (some r) name = some value)
      ∧ (metadata = none →
          ∀ j, seqLookup h1 (some r) j = if j = name then some value else none)
      ∧ (∀ r0, metadata = some r0 → r = r0) := by
  obtain ⟨h1, r, hok, hr, hseq, hlook, -⟩ := appendMetadata_effect h metadata name value
  refine ⟨h1, r, hok, hseq, ?_, ?_, ?_⟩
  · intro hn
    rw [hseq]
    simp [seqIndex, mapIndex, hn, readSlice, nilSlice]
  · rintro rfl j
    by_cases hj : j = name
    · subst hj
      rw [hseq]
      simp [seqIndex, mapIndex, mapLookup, readSlice, nilSlice]
    · have hl := hlook j hj
      simp only [seqLookup, hl, if_neg hj]
      rfl
  · rintro r0 rfl
    rcases hr with hr | ⟨hr, -⟩
    · exact (Option.some.inj hr).symm
    · cases hr

/-- C3, as stated, fails when the wrapper's own `Metadata` field holds the
same map object as the wrapped attribute: the object 3 wraps attribute 0, and
one call with it current makes `k` a key of the wrapper's own store. -/
theorem Metadata_composite_shared_map :
    ∃ s1, Metadata (sharedMapState [.compositeExpr (some 3) (some 0)]) "k" ["v"] = .ok s1
      ∧ seqLookup (sharedMapState [.compositeExpr (some 3) (some 0)]).heap
          ((sharedMapState [.compositeExpr (some 3) (some 0)]).others 3).Metadata "k" = none
      ∧ seqLookup s1.heap (s1.others 3).Metadata "k" = some ["v"] :=
  ⟨_, rfl, by decide, by decide⟩

/-- C3, amended.  When the current object is a composite whose `Attribute()`
is the attribute at `a`, `Metadata` returns and the memory and the `Metadata`
field of that attribute afterwards are what `appendMetadata` returns on its
`Metadata` field before: its store has the values appended under `name`.  No
object of another type changes, so the wrapper
keeps its own `Metadata` field and no store is created on it; the contents of
the wrapper's own store are as before when that store shares no memory with
the store of the attribute. -/
theorem Metadata_composite (s : State F) (self : Option Addr) (a : Addr)
    (name : String) (value : List String)
    (hcur : Current s = some (.compositeExpr self (some a))) :
    ∃ s1 h m, Metadata s name value = .ok s1
      ∧ appendMetadata s.heap (s.attributes a).Metadata name value = .ok (h, m)
      ∧ s1.heap = h ∧ (s1.attributes a).Metadata = m
      ∧ seqLookup s1.heap (s1.attributes a).Metadata name
          = some (seqIndex s.heap (s.attributes a).Metadata name ++ value)
      ∧ s1.others = s.others
      ∧ (∀ w, self = some w →
          Unshared s.heap (s.attributes a).Metadata name (s.others w).Metadata →
          ∀ k, seqLookup s1.heap (s1.others w).Metadata k
            = seqLookup s.heap (s.others w).Metadata k) := by
  obtain ⟨s1, h, m, hs1, hm, rfl⟩ :=
    Metadata_step s _ (.attribute a) name value hcur rfl
  have hfield : ((setStore s (.attribute a) h m).attributes a).Metadata = m := by
    simp [setStore, setAttributeMetadata]
  refine ⟨_, h, m, hs1, hm, rfl, hfield, ?_, rfl, ?_⟩
  · obtain ⟨h1, r, hok, -, hseq, -⟩ :=
      appendMetadata_effect s.heap (s.attributes a).Metadata name value
    have hm2 : appendMetadata s.heap (s.attributes a).Metadata name value = .ok (h, m) := hm
    rw [hm2] at hok
    cases hok
    rw [hfield]
    exact hseq
  · intro w _ hu k
    exact (appendMetadata_unshared s.heap h _ _ m name value hm hu k).2

/-- C3, amended, at a wrapper with no store of its own that wraps an attribute
with no store yet. -/
theorem Metadata_composite_witness :
    ∃ s1, Metadata (blankState [.compositeExpr (some 3) (some 0)]) "k" ["v"] = .ok s1
      ∧ seqLookup s1.heap (s1.attributes 0).Metadata "k" = some ["v"]
      ∧ (s1.others 3).Metadata = none := by
  obtain ⟨s1, h, m, h1, h2, h3, h4, -, h5, -⟩ := Metadata_composite
    (blankState [.compositeExpr (some 3) (some 0)]) (some 3) 0 "k" ["v"] rfl
  refine ⟨s1, h1, ?_, by rw [h5]; rfl⟩
  have h6 : appendMetadata (blankState [.compositeExpr (some 3) (some 0)]).heap
      ((blankState [.compositeExpr (some 3) (some 0)]).attributes 0).Metadata "k" ["v"]
      = .ok (_, some 0) := rfl
  rw [h2] at h6
  cases h6
  rw [h3, h4]
  decide

/-- C4. When the current object is absent, or of a type other than composite,
attribute, API or endpoint, `Metadata` returns having recorded the
incompatible-DSL error exactly once, for every name and values, and the
memory and every object, hence every metadata store, are as before; so is the
stack. -/
theorem Metadata_rejects (s : State F) (name : String) (value : List String)
    (h : unsupported (Current s) = true) :
    ∃ s1, Metadata s name value = .ok s1
      ∧ s1.errors = s.errors ++ [EvalError.incompatibleDSL]
      ∧ s1.heap = s.heap
      ∧ s1.attributes = s.attributes ∧ s1.apis = s.apis ∧ s1.endpoints = s.endpoints
      ∧ s1.others = s.others ∧ s1.stack = s.stack :=
  ⟨_, Metadata_of_unsupported s name value h, rfl, rfl, rfl, rfl, rfl, rfl, rfl⟩

/-- C4 outside any construction scope: the stack is empty. -/
theorem Metadata_rejects_witness :
    unsupported (Current (blankState [])) = true
    ∧ ∃ s1, Metadata (blankState []) "k" ["v"] = .ok s1
        ∧ s1.errors = [EvalError.incompatibleDSL] := by
  refine ⟨rfl, ?_⟩
  obtain ⟨s1, h1, h2, -⟩ := Metadata_rejects (blankState []) "k" ["v"] rfl
  exact ⟨s1, h1, h2⟩

/-- C5, as stated, fails on a store whose keys share a backing array: with
`k1` bound to `base[:1]` and `k2` to `base[:2]` of one array of capacity three,
`appendMetadata` under `k1` writes the second element of the array and `k2`
reads `a`, `x` where it read `a`, `b`. -/
theorem appendMetadata_aliased_other_key :
    ∃ h1 m1, appendMetadata aliasedHeap (some 0) "k1" ["x"] = .ok (h1, m1)
      ∧ seqLookup aliasedHeap (some 0) "k2" = some ["a", "b"]
      ∧ seqLookup h1 m1 "k2" = some ["a", "x"] :=
  ⟨_, _, rfl, by decide, by decide⟩

/-- C5, amended.  For every store, key `k1`, values and key `k2` other than
`k1`, `appendMetadata` under `k1` leaves `k2` bound as it was, to the same
slice value: present after iff present before.  Its sequence is unchanged when
the elements of its slice lie in an allocated array outside the spare capacity
of the slice under `k1`. -/
theorem appendMetadata_other_key (h : Heap) (metadata : MetadataExpr) (k1 k2 : String)
    (value : List String) (hne : k2 ≠ k1) :
    ∃ h1 m1, appendMetadata h metadata k1 value = .ok (h1, m1)
      ∧ mapLookup h1 m1 k2 = mapLookup h metadata k2
      ∧ ((seqLookup h1 m1 k2).isSome ↔ (seqLookup h metadata k2).isSome)
      ∧ ((∀ t, mapLookup h metadata k2 = some t →
            t.clearOf (mapIndex h metadata k1) ∧ (t.len = 0 ∨ t.arr < h.nextArray))
          → seqLookup h1 m1 k2 = seqLookup h metadata k2) := by
  obtain ⟨h1, r, hok, -, -, hlook, hframe, -⟩ := appendMetadata_effect h metadata k1 value
  have hl := hlook k2 hne
  refine ⟨h1, some r, hok, hl, by simp [seqLookup, hl], ?_⟩
  intro hclear
  simp only [seqLookup, hl]
  cases ht : mapLookup h metadata k2 with
  | none => rfl
  | some t =>
    obtain ⟨hc, ha⟩ := hclear t ht
    simp [hframe t hc ha]

/-- C5, amended, on the store of the counterexample with the keys exchanged:
`k2` holds both elements, `append` under it writes the third element of the
array, outside `k1`. -/
theorem appendMetadata_other_key_witness :
    "k1" ≠ "k2"
    ∧ ∃ h1 m1, appendMetadata aliasedHeap (some 0) "k2" ["x"] = .ok (h1, m1)
        ∧ seqLookup h1 m1 "k1" = some ["a"] := by
  refine ⟨by decide, ?_⟩
  obtain ⟨h1, m1, hok, -, -, hseq⟩ :=
    appendMetadata_other_key aliasedHeap (some 0) "k2" "k1" ["x"] (by decide)
  refine ⟨h1, m1, hok, ?_⟩
  rw [hseq]
  · decide
  · intro t ht
    have ht2 : t = ⟨0, 0, 1, 2⟩ := by
      have h3 : mapLookup aliasedHeap (some 0) "k1" = some ⟨0, 0, 1, 2⟩ := by decide
      rw [h3] at ht
      exact (Option.some.inj ht).symm
    subst ht2
    decide

/-- C6. For a current object that resolves to a target whose store has no key
`k` (the nil store included), `Metadata(k)` with zero values returns and
leaves `k` present with the empty sequence, so a presence lookup of `k` tells
the store after from the store before. -/
theorem Metadata_no_values (s : State F) (e : Expression) (t : Target) (k : String)
    (hcur : Current s = some e) (hres : resolve e = some t)
    (habs : mapLookup s.heap (storeOf s t) k = none) :
    ∃ s1, Metadata s k [] = .ok s1
      ∧ seqLookup s1.heap (storeOf s1 t) k = some []
      ∧ (mapLookup s1.heap (storeOf s1 t) k).isSome = true
      ∧ (mapLookup s.heap (storeOf s t) k).isSome = false := by
  obtain ⟨s1, h, m, hs1, hm, rfl⟩ := Metadata_step s e t k [] hcur hres
  obtain ⟨h1, r, hok, -, hseq, -⟩ := appendMetadata_effect s.heap (storeOf s t) k []
  rw [hm] at hok
  cases hok
  have hseq2 : seqLookup h (some r) k = some [] := by
    rw [hseq]
    simp [seqIndex, mapIndex, habs, readSlice, nilSlice]
  refine ⟨_, hs1, by simpa using hseq2, ?_, by simp [habs]⟩
  have h3 : (seqLookup h (some r) k).isSome = true := by simp [hseq2]
  simpa [seqLookup] using h3

/-- C6 at the doc comment's `Metadata("swagger:tag:Backend")` on an API with no
store yet. -/
theorem Metadata_no_values_witness :
    ∃ s1, Metadata (blankState [.apiExpr (some 2)]) "swagger:tag:Backend" [] = .ok s1
      ∧ seqLookup s1.heap (storeOf s1 (.api 2)) "swagger:tag:Backend" = some [] := by
  obtain ⟨s1, h1, h2, -⟩ := Metadata_no_values (blankState [.apiExpr (some 2)])
    (.apiExpr (some 2)) (.api 2) "swagger:tag:Backend" rfl rfl rfl
  exact ⟨s1, h1, h2⟩

/-- C7. `Metadata` returns with a changed error list if and only if the
current object is absent or of a type other than composite, attribute, API or
endpoint; and on every current object that resolves to a target, for every
name (the empty string and a name already in the store included) and every
values (none included), it returns with the error list as it was, and the
memory and the target's `Metadata` field are what `appendMetadata` returns. -/
theorem Metadata_error_iff (s : State F) (name : String) (value : List String) :
    ((∃ s1, Metadata s name value = .ok s1 ∧ s1.errors ≠ s.errors)
        ↔ unsupported (Current s) = true)
    ∧ (∀ e t, Current s = some e → resolve e = some t →
        ∃ s1 h m, Metadata s name value = .ok s1 ∧ s1.errors = s.errors
          ∧ appendMetadata s.heap (storeOf s t) name value = .ok (h, m)
          ∧ s1.heap = h ∧ storeOf s1 t = m) := by
  have key : ∀ e t, Current s = some e → resolve e = some t →
      ∃ s1 h m, Metadata s name value = .ok s1 ∧ s1.errors = s.errors
        ∧ appendMetadata s.heap (storeOf s t) name value = .ok (h, m)
        ∧ s1.heap = h ∧ storeOf s1 t = m := by
    intro e t hcur hres
    obtain ⟨s1, h, m, hs1, hm, rfl⟩ := Metadata_step s e t name value hcur hres
    exact ⟨_, h, m, hs1, by simp, hm, by simp, by simp⟩
  refine ⟨⟨?_, ?_⟩, key⟩
  · rintro ⟨s1, hs1, hne⟩
    rcases Metadata_cases s name value with hu | ⟨e, t, hcur, hr⟩ | hf
    · exact hu
    · obtain ⟨s2, h, m, hs2, herr, -⟩ := key e t hcur hr
      rw [hs1] at hs2
      cases hs2
      exact absurd herr hne
    · rw [hs1] at hf
      cases hf
  · intro hu
    refine ⟨_, Metadata_of_unsupported s name value hu, ?_⟩
    simp [IncompatibleDSL]

/-- C8, as stated, fails when another object holds the same map object as the
resolved one: attributes 0 and 1 share one map, and one call with attribute 0
current makes `k` a key of the store of attribute 1. -/
theorem Metadata_shared_map_other_object :
    ∃ s1, Metadata (sharedMapState [.attributeExpr (some 0)]) "k" ["v"] = .ok s1
      ∧ seqLookup (sharedMapState [.attributeExpr (some 0)]).heap
          (storeOf (sharedMapState [.attributeExpr (some 0)]) (.attribute 1)) "k" = none
      ∧ seqLookup s1.heap (storeOf s1 (.attribute 1)) "k" = some ["v"] :=
  ⟨_, rfl, by decide, by decide⟩

/-- C8, amended.  On a current object that resolves to a target, `Metadata`
returns and changes only the `Metadata` field of that target and the memory of
its store: the stack, the error list and the objects of other types are as
before, every attribute, API and endpoint keeps its other fields, every object
other than the target keeps its `Metadata` field, and every store that shares
no memory with the store of the target (another map object, with no slice
element inside the spare capacity of the slice that is appended to) has the
same keys and sequences as before; for a composite the target is the
attribute it wraps. -/
theorem Metadata_frame (s : State F) (e : Expression) (t : Target)
    (name : String) (value : List String)
    (hcur : Current s = some e) (hres : resolve e = some t) :
    ∃ s1 h m, Metadata s name value = .ok s1
      ∧ appendMetadata s.heap (storeOf s t) name value = .ok (h, m)
      ∧ s1 = setStore s t h m
      ∧ s1.stack = s.stack ∧ s1.errors = s.errors ∧ s1.others = s.others
      ∧ (∀ b, (s1.attributes b).fields = (s.attributes b).fields)
      ∧ (∀ b, (s1.apis b).fields = (s.apis b).fields)
      ∧ (∀ b, (s1.endpoints b).fields = (s.endpoints b).fields)
      ∧ (∀ u, u ≠ t → storeOf s1 u = storeOf s u)
      ∧ (∀ mu, Unshared s.heap (storeOf s t) name mu →
          ∀ k, seqLookup s1.heap mu k = seqLookup s.heap mu k)
      ∧ (∀ self a, e = .compositeExpr self (some a) → t = .attribute a) := by
  obtain ⟨s1, h, m, hs1, hm, rfl⟩ := Metadata_step s e t name value hcur hres
  refine ⟨_, h, m, hs1, hm, rfl, ?_, ?_, ?_, ?_, ?_, ?_, ?_, ?_, ?_⟩
  · cases t <;> rfl
  · simp
  · cases t <;> rfl
  · intro b
    cases t <;> simp [setStore, setAttributeMetadata, setAPIMetadata, setEndpointMetadata,
      Function.update]
    split <;> simp_all
  · intro b
    cases t <;> simp [setStore, setAttributeMetadata, setAPIMetadata, setEndpointMetadata,
      Function.update]
    split <;> simp_all
  · intro b
    cases t <;> simp [setStore, setAttributeMetadata, setAPIMetadata, setEndpointMetadata,
      Function.update]
    split <;> simp_all
  · intro u hu
    exact storeOf_setStore_of_ne s t u h m hu
  · intro mu hmu k
    rw [heap_setStore]
    exact (appendMetadata_unshared s.heap h _ mu m name value hm hmu k).2
  · rintro self a rfl
    simpa [resolve] using hres.symm

/-- C8, amended, on an endpoint of the state whose attributes share a map: the
store of attribute 1 is another map object than the endpoint's new one, and
reads as before. -/
theorem Metadata_frame_witness :
    ∃ s1, Metadata (sharedMapState [.endpointExpr (some 1)]) "swagger:summary" ["s"] = .ok s1
      ∧ storeOf s1 (.attribute 1) = some 0
      ∧ seqLookup s1.heap (some 0) "swagger:summary" = none
      ∧ seqLookup s1.heap (storeOf s1 (.endpoint 1)) "swagger:summary" = some ["s"] := by
  obtain ⟨s1, h, m, h1, h2, h3, -, -, -, -, -, -, h4, h5, -⟩ := Metadata_frame
    (sharedMapState [.endpointExpr (some 1)]) (.endpointExpr (some 1)) (.endpoint 1)
    "swagger:summary" ["s"] rfl rfl
  have hu : Unshared (sharedMapState [.endpointExpr (some 1)]).heap
      (storeOf (sharedMapState [.endpointExpr (some 1)]) (.endpoint 1)) "swagger:summary"
      (some 0) := by
    constructor
    · intro r hr
      cases hr
      exact ⟨by decide, by decide⟩
    · intro k t ht
      simp [sharedMapState, mapLookup] at ht
  have h6 : appendMetadata (sharedMapState [.endpointExpr (some 1)]).heap
      (storeOf (sharedMapState [.endpointExpr (some 1)]) (.endpoint 1)) "swagger:summary" ["s"]
      = .ok (_, some 1) := rfl
  rw [h2] at h6
  cases h6
  refine ⟨s1, h1, (h4 (.attribute 1) (by decide)).trans rfl, (h5 (some 0) hu _).trans rfl, ?_⟩
  subst h3
  decide

/-- C9, at a failing input.  With a service expression or a response
expression current (neither is a case of the type switch), `Metadata` records
nothing and reports the incompatible-DSL error, although the doc comment of
`Metadata` lists both among the objects metadata may be set on. -/
theorem Metadata_service_response_rejected :
    Metadata (blankState [.serviceExpr (some 0)]) "swagger:tag:Backend" ["x"]
      = .ok (IncompatibleDSL (blankState [.serviceExpr (some 0)]))
    ∧ Metadata (blankState [.responseExpr (some 0)]) "swagger:tag:Backend" ["x"]
      = .ok (IncompatibleDSL (blankState [.responseExpr (some 0)]))
    ∧ (IncompatibleDSL (blankState [.serviceExpr (some 0)])).errors
      = [EvalError.incompatibleDSL]
    ∧ ((IncompatibleDSL (blankState [.serviceExpr (some 0)])).others 0).Metadata = none :=
  ⟨rfl, rfl, rfl, rfl⟩

/-! ## Repeated calls of the closure -/

theorem clearOf_goAppend (h : Heap) (s t : Slice) (vs : List String)
    (hc : t.clearOf s) (ha : t.len = 0 ∨ t.arr < h.nextArray) :
    t.clearOf (goAppend h s vs).2 := by
  unfold Slice.clearOf at *
  unfold goAppend
  split
  · simp only
    omega
  · simp only
    omega

/-- One call of the closure under a key that stands clear of the other keys:
the key gets the values appended, every other key reads as before, and the
key still stands clear of the others. -/
theorem appendMetadata_keyClear (h : Heap) (metadata : MetadataExpr) (name : String)
    (value : List String) (hk : KeyClear h metadata name) :
    ∃ h1 r, appendMetadata h metadata name value = .ok (h1, some r)
      ∧ KeyClear h1 (some r) name
      ∧ ∀ j, seqLookup h1 (some r) j
          = if j = name then some (seqIndex h metadata name ++ value) else seqLookup h metadata j := by
  obtain ⟨h1, r, hok, -, -, -, -, -, hname, -, -⟩ :=
    appendMetadata_result h metadata name value
  obtain ⟨h2, r2, hok2, -, hseq, hlook, hframe, -, hmono, -⟩ :=
    appendMetadata_effect h metadata name value
  rw [hok] at hok2
  cases hok2
  refine ⟨h1, r, hok, ?_, ?_⟩
  · intro j t hj ht
    rw [hlook j hj] at ht
    obtain ⟨hc, ha⟩ := hk j t hj ht
    have hidx : mapIndex h1 (some r) name = (goAppend h (mapIndex h metadata name) value).2 := by
      simp [mapIndex, mapLookup, hname]
    rw [hidx]
    exact ⟨clearOf_goAppend h _ t value hc ha, by omega⟩
  · intro j
    by_cases hj : j = name
    · subst hj
      simp [hseq]
    · simp only [if_neg hj, seqLookup, hlook j hj]
      cases ht : mapLookup h metadata j with
      | none => rfl
      | some t =>
        obtain ⟨hc, ha⟩ := hk j t hj ht
        simp [hframe t hc ha]

/-- Two calls of the closure under distinct keys of a store whose keys do not
interfere: each key gets its values, every other key reads as before. -/
theorem appendMetadata_twice (h : Heap) (metadata : MetadataExpr) (k1 k2 : String)
    (xs ys : List String) (hne : k1 ≠ k2) (hsep : Separated h metadata) :
    ∃ h2 r, (appendMetadata h metadata k1 xs >>= fun p => appendMetadata p.1 p.2 k2 ys)
        = .ok (h2, some r)
      ∧ ∀ j, seqLookup h2 (some r) j
          = if j = k2 then some (seqIndex h metadata k2 ++ ys)
            else if j = k1 then some (seqIndex h metadata k1 ++ xs)
            else seqLookup h metadata j := by
  obtain ⟨h1, r1, hok1, -, hsep1, hseq1⟩ := appendMetadata_separated h metadata k1 xs hsep
  obtain ⟨h2, r2, hok2, -, -, hseq2⟩ := appendMetadata_separated h1 (some r1) k2 ys hsep1
  have h21 : ¬ k2 = k1 := fun e => hne e.symm
  refine ⟨h2, r2, by simp [hok1, hok2, bind, Except.bind], ?_⟩
  intro j
  rw [hseq2 j]
  by_cases hj : j = k2
  · subst hj
    simp [seqIndex_eq h1, hseq1, h21, seqIndex_eq h]
  · simp [hj, hseq1]

/-- C10, as stated, fails on a store in which `k1` and `k2` are bound to the
same slice with spare capacity: each `append` writes the same array element,
so the call made last decides what both keys read. -/
theorem appendMetadata_shared_slice_order :
    ∃ hA mA hB mB,
      (appendMetadata sharedSliceHeap (some 0) "k1" ["x"]
          >>= fun p => appendMetadata p.1 p.2 "k2" ["y"]) = .ok (hA, mA)
      ∧ (appendMetadata sharedSliceHeap (some 0) "k2" ["y"]
          >>= fun p => appendMetadata p.1 p.2 "k1" ["x"]) = .ok (hB, mB)
      ∧ seqLookup hA mA "k1" = some ["a", "y"]
      ∧ seqLookup hB mB "k1" = some ["a", "x"] :=
  ⟨_, _, _, _, rfl, rfl, by decide, by decide⟩

/-- C10, amended.  For every store whose keys do not interfere (no slice has
spare capacity inside the capacity of the slice of another key, and every
slice lies in an allocated array), distinct keys `k1` and `k2` and value lists
`xs` and `ys`, `appendMetadata` under `k1` then under `k2` and
`appendMetadata` under `k2` then under `k1` both return, with stores that have
the same keys and the same sequence at every key. -/
theorem appendMetadata_comm (h : Heap) (metadata : MetadataExpr) (k1 k2 : String)
    (xs ys : List String) (hne : k1 ≠ k2) (hsep : Separated h metadata) :
    ∃ hA mA hB mB,
      (appendMetadata h metadata k1 xs >>= fun p => appendMetadata p.1 p.2 k2 ys)
          = .ok (hA, mA)
      ∧ (appendMetadata h metadata k2 ys >>= fun p => appendMetadata p.1 p.2 k1 xs)
          = .ok (hB, mB)
      ∧ ∀ j, seqLookup hA mA j = seqLookup hB mB j := by
  obtain ⟨hA, rA, hokA, hseqA⟩ := appendMetadata_twice h metadata k1 k2 xs ys hne hsep
  obtain ⟨hB, rB, hokB, hseqB⟩ :=
    appendMetadata_twice h metadata k2 k1 ys xs (fun e => hne e.symm) hsep
  refine ⟨hA, some rA, hB, some rB, hokA, hokB, ?_⟩
  intro j
  rw [hseqA j, hseqB j]
  by_cases h1 : j = k1
  · subst h1
    simp [hne]
  · by_cases h2 : j = k2
    · subst h2
      simp [h1]
    · simp [h1, h2]

/-- C10, amended, on the nil store. -/
theorem appendMetadata_comm_witness :
    "k1" ≠ "k2" ∧ Separated emptyHeap none
    ∧ ∃ hA mA hB mB,
        (appendMetadata emptyHeap none "k1" ["x"]
            >>= fun p => appendMetadata p.1 p.2 "k2" ["y"]) = .ok (hA, mA)
        ∧ (appendMetadata emptyHeap none "k2" ["y"]
            >>= fun p => appendMetadata p.1 p.2 "k1" ["x"]) = .ok (hB, mB)
        ∧ seqLookup hB mB "k1" = some ["x"] ∧ seqLookup hB mB "k2" = some ["y"] := by
  have hsep : Separated emptyHeap none := by
    constructor
    · intro k t ht
      simp [mapLookup] at ht
    · intro j k t u _ ht
      simp [mapLookup] at ht
  refine ⟨by decide, hsep, ?_⟩
  obtain ⟨hA, mA, hB, mB, h1, h2, h3⟩ :=
    appendMetadata_comm emptyHeap none "k1" "k2" ["x"] ["y"] (by decide) hsep
  refine ⟨hA, mA, hB, mB, h1, h2, ?_, ?_⟩
  · have h4 : (appendMetadata emptyHeap none "k1" ["x"]
        >>= fun p => appendMetadata p.1 p.2 "k2" ["y"]) = .ok (_, some 0) := rfl
    rw [h1] at h4
    cases h4
    rw [← h3]
    decide
  · have h4 : (appendMetadata emptyHeap none "k1" ["x"]
        >>= fun p => appendMetadata p.1 p.2 "k2" ["y"]) = .ok (_, some 0) := rfl
    rw [h1] at h4
    cases h4
    rw [← h3]
    decide

/-- C11. `Metadata` leaves the stack of the evaluation context as it was:
whenever the call returns, the stack and the current object are those before
the call; and the call does return, with the same stack, both in the rejected
case (current object absent or unsupported) and on every current object that
resolves to a target. -/
theorem Metadata_stack_unchanged (s : State F) (name : String) (value : List String) :
    (∀ s1, Metadata s name value = .ok s1 → s1.stack = s.stack ∧ Current s1 = Current s)
    ∧ (unsupported (Current s) = true →
        ∃ s1, Metadata s name value = .ok s1 ∧ s1.stack = s.stack)
    ∧ (∀ e t, Current s = some e → resolve e = some t →
        ∃ s1, Metadata s name value = .ok s1 ∧ s1.stack = s.stack) := by
  have hrej : unsupported (Current s) = true →
      ∃ s1, Metadata s name value = .ok s1 ∧ s1.stack = s.stack := fun hu =>
    ⟨_, Metadata_of_unsupported s name value hu, rfl⟩
  have hres : ∀ e t, Current s = some e → resolve e = some t →
      ∃ s1, Metadata s name value = .ok s1 ∧ s1.stack = s.stack := by
    intro e t hcur hr
    obtain ⟨s1, h, m, hs1, -, rfl⟩ := Metadata_step s e t name value hcur hr
    exact ⟨_, hs1, by cases t <;> rfl⟩
  refine ⟨?_, hrej, hres⟩
  intro s1 hs1
  have hstack : s1.stack = s.stack := by
    rcases Metadata_cases s name value with hu | ⟨e, t, hcur, hr⟩ | hf
    · obtain ⟨s2, hs2, h⟩ := hrej hu
      rw [hs1] at hs2
      cases hs2
      exact h
    · obtain ⟨s2, hs2, h⟩ := hres e t hcur hr
      rw [hs1] at hs2
      cases hs2
      exact h
    · rw [hs1] at hf
      cases hf
  exact ⟨hstack, by simp [Current, hstack]⟩

/-- C11 on a two-deep stack with an endpoint on top. -/
theorem Metadata_stack_unchanged_witness :
    ∃ s1, Metadata (blankState [.endpointExpr (some 1), .serviceExpr (some 0)]) "k" ["v"]
        = .ok s1
      ∧ s1.stack = [.endpointExpr (some 1), .serviceExpr (some 0)] := by
  obtain ⟨s1, h1, h2⟩ := (Metadata_stack_unchanged
    (blankState [.endpointExpr (some 1), .serviceExpr (some 0)]) "k" ["v"]).2.2
    (.endpointExpr (some 1)) (.endpoint 1) rfl rfl
  exact ⟨s1, h1, h2⟩

/-- C12. The switch handles a current object by exactly one case, and a value
of a type that implements `design.CompositeExpr` by the composite case, which
is tested first.  A Go value has one dynamic type, and the three pointer types
have live cases of their own, so no value matches two cases.  Whenever the
call returns, only the objects of the one case that matched can differ: the
attributes for a composite or an attribute, the APIs for an API, the endpoints
for an endpoint, and none of them, nor the memory, in the default case, which
alone reports an error.  For a composite: when `Attribute()` is nil the
composite case panics, no other case is tried; when it is the attribute at `a`
the call returns, the memory and the `Metadata` field of that attribute are
what `appendMetadata` returns, and nothing else of any object changes: no
other attribute, no API, no endpoint, no object of another type, so the
wrapper keeps its own `Metadata` field. -/
theorem Metadata_composite_first (s : State F) (name : String) (value : List String) :
    (∀ s1, Metadata s name value = .ok s1 →
      (((∃ self att, Current s = some (.compositeExpr self att))
            ∨ ∃ p, Current s = some (.attributeExpr p)) →
          s1.apis = s.apis ∧ s1.endpoints = s.endpoints ∧ s1.others = s.others
            ∧ s1.errors = s.errors)
      ∧ ((∃ p, Current s = some (.apiExpr p)) →
          s1.attributes = s.attributes ∧ s1.endpoints = s.endpoints ∧ s1.others = s.others
            ∧ s1.errors = s.errors)
      ∧ ((∃ p, Current s = some (.endpointExpr p)) →
          s1.attributes = s.attributes ∧ s1.apis = s.apis ∧ s1.others = s.others
            ∧ s1.errors = s.errors)
      ∧ (unsupported (Current s) = true →
          s1.attributes = s.attributes ∧ s1.apis = s.apis ∧ s1.endpoints = s.endpoints
            ∧ s1.others = s.others ∧ s1.heap = s.heap
            ∧ s1.errors = s.errors ++ [EvalError.incompatibleDSL]))
    ∧ (∀ self att, Current s = some (.compositeExpr self att) →
        (att = none → Metadata s name value = .error .nilDereference)
        ∧ (∀ a, att = some a →
            ∃ s1 h m, Metadata s name value = .ok s1
              ∧ appendMetadata s.heap (s.attributes a).Metadata name value = .ok (h, m)
              ∧ s1 = setAttributeMetadata s a h m
              ∧ s1.apis = s.apis ∧ s1.endpoints = s.endpoints ∧ s1.others = s.others
              ∧ (∀ b, b ≠ a → s1.attributes b = s.attributes b)
              ∧ (∀ w, self = some w → (s1.others w).Metadata = (s.others w).Metadata)
              ∧ s1.errors = s.errors)) := by
  constructor
  · intro s1 hs1
    rcases Metadata_cases s name value with hu | ⟨e, t, hcur, hr⟩ | hf
    · rw [Metadata_of_unsupported s name value hu] at hs1
      cases hs1
      refine ⟨?_, ?_, ?_, fun _ => ⟨rfl, rfl, rfl, rfl, rfl, rfl⟩⟩
      · rintro (⟨self, att, hc⟩ | ⟨p, hc⟩) <;> simp [hc, unsupported] at hu
      · rintro ⟨p, hc⟩
        simp [hc, unsupported] at hu
      · rintro ⟨p, hc⟩
        simp [hc, unsupported] at hu
    · obtain ⟨s2, h, m, hs2, -, rfl⟩ := Metadata_step s e t name value hcur hr
      rw [hs1] at hs2
      cases hs2
      refine ⟨?_, ?_, ?_, ?_⟩
      · rintro (⟨self, att, hc⟩ | ⟨p, hc⟩)
        · rw [hcur] at hc
          cases hc
          cases att <;> simp [resolve] at hr
          subst hr
          exact ⟨rfl, rfl, rfl, rfl⟩
        · rw [hcur] at hc
          cases hc
          cases p <;> simp [resolve] at hr
          subst hr
          exact ⟨rfl, rfl, rfl, rfl⟩
      · rintro ⟨p, hc⟩
        rw [hcur] at hc
        cases hc
        cases p <;> simp [resolve] at hr
        subst hr
        exact ⟨rfl, rfl, rfl, rfl⟩
      · rintro ⟨p, hc⟩
        rw [hcur] at hc
        cases hc
        cases p <;> simp [resolve] at hr
        subst hr
        exact ⟨rfl, rfl, rfl, rfl⟩
      · intro hu
        rw [hcur] at hu
        cases e <;> simp [unsupported, resolve] at hu hr
    · rw [hs1] at hf
      cases hf
  · intro self att hcur
    constructor
    · rintro rfl
      simp [Metadata, hcur]
    · rintro a rfl
      obtain ⟨s1, h, m, hs1, hm, rfl⟩ :=
        Metadata_step s _ (.attribute a) name value hcur rfl
      refine ⟨_, h, m, hs1, hm, rfl, rfl, rfl, rfl, ?_, ?_, rfl⟩
      · intro b hb
        simp [setStore, setAttributeMetadata, Function.update, hb]
      · intro w _
        rfl

/-- C12 at a wrapper (object 3) of attribute 5: attribute 5 gets the store and
the wrapper keeps its nil `Metadata` field. -/
theorem Metadata_composite_first_witness :
    ∃ s1, Metadata (blankState [.compositeExpr (some 3) (some 5)]) "k" ["v"] = .ok s1
      ∧ (s1.others 3).Metadata = none ∧ s1.errors = [] := by
  obtain ⟨s1, h, m, h1, -, -, -, -, h2, -, -, h3⟩ := ((Metadata_composite_first
    (blankState [.compositeExpr (some 3) (some 5)]) "k" ["v"]).2 (some 3) (some 5) rfl).2 5 rfl
  exact ⟨s1, h1, by rw [h2]; rfl, h3⟩

/-- C13, as stated, fails on a store whose keys share a backing array: with
`k1` bound to `base[:1]` and `k2` to `base[:2]` of one array of capacity three,
`x` and then `y`, `z` under `k1` writes `x` into the array before a new array
is allocated, while `x`, `y`, `z` at once allocates a new array at once; `k2`
reads `a`, `x` after the first and `a`, `b` after the second. -/
theorem appendMetadata_split_aliased :
    ∃ hA mA hB mB,
      (appendMetadata aliasedHeap (some 0) "k1" ["x"]
          >>= fun p => appendMetadata p.1 p.2 "k1" ["y", "z"]) = .ok (hA, mA)
      ∧ appendMetadata aliasedHeap (some 0) "k1" ["x", "y", "z"] = .ok (hB, mB)
      ∧ seqLookup hA mA "k2" = some ["a", "x"]
      ∧ seqLookup hB mB "k2" = some ["a", "b"] :=
  ⟨_, _, _, _, rfl, rfl, by decide, by decide⟩

/-- C13, amended.  For every store and key `k` such that the elements of the
slice of every other key lie in an allocated array outside the spare capacity
of the slice under `k`, and lists `xs` and `ys`, `appendMetadata` of `xs` under
`k` and then of `ys` under `k`, and one `appendMetadata` of `xs ++ ys` under
`k`, both return, with stores that have the same keys and the same sequence at
every key. -/
theorem appendMetadata_split (h : Heap) (metadata : MetadataExpr) (k : String)
    (xs ys : List String) (hk : KeyClear h metadata k) :
    ∃ hA mA hB mB,
      (appendMetadata h metadata k xs >>= fun p => appendMetadata p.1 p.2 k ys)
          = .ok (hA, mA)
      ∧ appendMetadata h metadata k (xs ++ ys) = .ok (hB, mB)
      ∧ ∀ j, seqLookup hA mA j = seqLookup hB mB j := by
  obtain ⟨h1, r1, hok1, hk1, hseq1⟩ := appendMetadata_keyClear h metadata k xs hk
  obtain ⟨h2, r2, hok2, -, hseq2⟩ := appendMetadata_keyClear h1 (some r1) k ys hk1
  obtain ⟨hB, rB, hokB, -, hseqB⟩ := appendMetadata_keyClear h metadata k (xs ++ ys) hk
  refine ⟨h2, some r2, hB, some rB, by simp [hok1, hok2, bind, Except.bind], hokB, ?_⟩
  intro j
  rw [hseq2 j, hseqB j]
  by_cases hj : j = k
  · subst hj
    simp [seqIndex_eq h1, hseq1, seqIndex_eq h]
  · simp [hj, hseq1]

/-- C13, amended, on the store of the counterexample with the keys exchanged:
`k2` holds both elements, so `k1` lies outside its spare capacity. -/
theorem appendMetadata_split_witness :
    KeyClear aliasedHeap (some 0) "k2"
    ∧ ∃ hA mA hB mB,
        (appendMetadata aliasedHeap (some 0) "k2" ["x"]
            >>= fun p => appendMetadata p.1 p.2 "k2" ["y", "z"]) = .ok (hA, mA)
        ∧ appendMetadata aliasedHeap (some 0) "k2" ["x", "y", "z"] = .ok (hB, mB)
        ∧ seqLookup hA mA "k1" = some ["a"] ∧ seqLookup hB mB "k1" = some ["a"] := by
  have hk : KeyClear aliasedHeap (some 0) "k2" := by
    intro j t hj ht
    have h1 : mapIndex aliasedHeap (some 0) "k2" = ⟨0, 0, 2, 1⟩ := by decide
    rw [h1]
    simp only [mapLookup, aliasedHeap, if_true, if_neg hj] at ht
    split at ht
    · cases ht
      decide
    · cases ht
  refine ⟨hk, ?_⟩
  obtain ⟨hA, mA, hB, mB, h1, h2, h3⟩ :=
    appendMetadata_split aliasedHeap (some 0) "k2" ["x"] ["y", "z"] hk
  refine ⟨hA, mA, hB, mB, h1, h2, ?_, ?_⟩
  · have h4 : appendMetadata aliasedHeap (some 0) "k2" (["x"] ++ ["y", "z"])
        = .ok (_, some 0) := rfl
    rw [h2] at h4
    cases h4
    rw [h3]
    decide
  · have h4 : appendMetadata aliasedHeap (some 0) "k2" (["x"] ++ ["y", "z"])
        = .ok (_, some 0) := rfl
    rw [h2] at h4
    cases h4
    decide

/-- C14. `appendMetadata` of zero values under a key that the store has (the
store is then present) returns the store and the memory as they were; and
under any key, on any store, a second `appendMetadata` of zero values returns
what the first returned. -/
theorem appendMetadata_no_values (h : Heap) (metadata : MetadataExpr) (k : String) :
    ((mapLookup h metadata k).isSome = true → appendMetadata h metadata k [] = .ok (h, metadata))
    ∧ ∃ h1 m1, appendMetadata h metadata k [] = .ok (h1, m1)
        ∧ appendMetadata h1 m1 k [] = .ok (h1, m1) := by
  have hid : ∀ (g : Heap) (m : MetadataExpr), (mapLookup g m k).isSome = true →
      appendMetadata g m k [] = .ok (g, m) := by
    intro g m hs
    obtain ⟨t, ht⟩ := Option.isSome_iff_exists.mp hs
    cases m with
    | none => simp [mapLookup] at ht
    | some r =>
      simp only [mapLookup] at ht
      have hi : mapIndex g (some r) k = t := by simp [mapIndex, mapLookup, ht]
      rw [appendMetadata_some, hi, goAppend_nil]
      have hu : Function.update (g.maps r) k (some t) = g.maps r := by
        rw [← ht]
        exact Function.update_eq_self k (g.maps r)
      simp only [hu, Function.update_eq_self]
  refine ⟨hid h metadata, ?_⟩
  obtain ⟨h1, r, hok, -, -, -, -, -, hname, -, -⟩ := appendMetadata_result h metadata k []
  exact ⟨h1, some r, hok, hid h1 (some r) (by simp [mapLookup, hname])⟩

/-- C14 on a present store that has the key. -/
theorem appendMetadata_no_values_witness :
    (mapLookup aliasedHeap (some 0) "k1").isSome = true
    ∧ appendMetadata aliasedHeap (some 0) "k1" [] = .ok (aliasedHeap, some 0) :=
  ⟨by decide, (appendMetadata_no_values aliasedHeap (some 0) "k1").1 (by decide)⟩

/-- C15. `Metadata` returns exactly when the current object is absent, of an
unsupported type, or resolves to a target (a non-nil attribute, API or
endpoint, or a composite whose `Attribute()` is non-nil); under that
precondition no fault is raised.  The closure never faults at all: whatever
store it is given, nil included, its map assignment is to a present map. -/
theorem Metadata_never_faults (s : State F) (name : String) (value : List String) :
    ((unsupported (Current s) = true ∨ ∃ e t, Current s = some e ∧ resolve e = some t)
        ↔ ∃ s1, Metadata s name value = .ok s1)
    ∧ ((unsupported (Current s) = true ∨ ∃ e t, Current s = some e ∧ resolve e = some t)
        → ∀ f, Metadata s name value ≠ .error f)
    ∧ (∀ (h : Heap) (metadata : MetadataExpr) (f : Fault),
        appendMetadata h metadata name value ≠ .error f)
    ∧ (∀ (h : Heap) (metadata : MetadataExpr),
        (if metadata.isNone then makeMap h else (h, metadata)).2.isSome = true) := by
  have hret : (unsupported (Current s) = true ∨ ∃ e t, Current s = some e ∧ resolve e = some t)
      → ∃ s1, Metadata s name value = .ok s1 := by
    rintro (hu | ⟨e, t, hcur, hr⟩)
    · exact ⟨_, Metadata_of_unsupported s name value hu⟩
    · obtain ⟨s1, h, m, hs1, -⟩ := Metadata_step s e t name value hcur hr
      exact ⟨s1, hs1⟩
  refine ⟨⟨hret, ?_⟩, ?_, ?_, ?_⟩
  · rintro ⟨s1, hs1⟩
    rcases Metadata_cases s name value with hu | hr | hf
    · exact Or.inl hu
    · exact Or.inr hr
    · rw [hs1] at hf
      cases hf
  · intro hpre f hf
    obtain ⟨s1, hs1⟩ := hret hpre
    rw [hs1] at hf
    cases hf
  · intro h metadata f hf
    obtain ⟨h1, m, hok⟩ := appendMetadata_ok h metadata name value
    rw [hok] at hf
    cases hf
  · intro h metadata
    cases metadata <;> simp [makeMap]

/-- C15 on an attribute with no store yet: the call returns. -/
theorem Metadata_never_faults_witness :
    (∃ e t, Current (blankState [.attributeExpr (some 0)]) = some e ∧ resolve e = some t)
    ∧ ∃ s1, Metadata (blankState [.attributeExpr (some 0)]) "k" ["v"] = .ok s1 :=
  ⟨⟨_, .attribute 0, rfl, rfl⟩, (Metadata_never_faults
    (blankState [.attributeExpr (some 0)]) "k" ["v"]).1.1
    (Or.inr ⟨_, .attribute 0, rfl, rfl⟩)⟩

end Goa
